import Mathlib

/-!
Verification of the `sommelier-auction-bot` core: the auction state cache
(`crates/sommelier-auction-cache/src/lib.rs`) and the order-matching /
bid-evaluation engine (`crates/sommelier-auction-order-engine/src/watcher.rs`).

Modelling conventions:
* Rust `u64`/`u32` quantities are `Nat`; where Rust saturates or bounds a
  value (the `as u64` cast, `u64` parsing) the bound `2 ^ 64 - 1` appears
  explicitly.
* `f64` price arithmetic is modelled in exact rational arithmetic `ℚ`, as the
  design document describes the computation ("decimal computation", floor
  truncation). IEEE-754 rounding at extreme magnitudes, signed zero, and the
  `x / 0.0 = inf` edge are outside the model; the theorems about the price
  ratio therefore carry a `0 < unit_price` hypothesis.
* Rust `HashMap` state is modelled as an association list with key-unique
  entries (`ainsert` replaces the first binding of an existing key and
  otherwise appends, `alookup` returns the first binding); the fallible
  network query of `Client::active_auctions` is a `Except` value supplied as
  an explicit input; `unwrap` panics are the `none` case of an `Option`
  result.
-/

/-- Canonical token identifier, from the external `sommelier_auction` crate's
`Denom` type as used by the watcher. -/
structure Denom where
  name : String
  deriving DecidableEq, Repr

/-- Modelled from the spec: `Denom` construction "fails if the identifier is
malformed" (the `Denom::try_from` implementation lives in the external
`sommelier_auction` crate, not in this repository); malformedness is modelled
as the empty identifier. -/
def Denom.tryFrom (s : String) : Option Denom :=
  if s.isEmpty then none else some ⟨s⟩

/-- A `Coin` proto message: a denom string and a decimal string amount, as held
in the auction proto's `starting_tokens_for_sale` / `remaining_tokens_for_sale`
fields. -/
structure Coin where
  denom : String
  amount : String
  deriving DecidableEq, Repr

/-- The auction record (the fields of `sommelier_auction::auction::Auction` /
the auction proto that the cache and the watcher read; remaining proto fields
are never accessed by this repository's code and are omitted). -/
structure Auction where
  id : Nat
  starting_tokens_for_sale : Option Coin
  remaining_tokens_for_sale : Option Coin
  current_unit_price_in_usomm : String
  end_block : Nat
  deriving DecidableEq, Repr

/-- Modelled from the spec: the `Order` record of the order engine ("a standing
willingness to spend up to `maximum_quote_in` units ... for at least
`minimum_usd_value_out` of realized value"); the field names follow the
accesses in `watcher.rs` (`maximum_usomm_in`, `minimum_usd_value_out`,
`fee_token`). -/
structure Order where
  maximum_usomm_in : Nat
  minimum_usd_value_out : Nat
  fee_token : Denom
  deriving DecidableEq, Repr

/-- The bid produced by `Watcher::evaluate_bid` (fields of
`sommelier_auction::bid::Bid` as constructed in `watcher.rs`). -/
structure Bid where
  auction_id : Nat
  fee_token : Denom
  maximum_usomm_in : Nat
  minimum_tokens_out : Nat
  deriving DecidableEq, Repr

/-- Value of a digit list, `none` when some character is not a digit (an empty
list has value `0`; emptiness is checked separately by the callers). -/
def digitsVal : List Char → Option Nat
  | [] => some 0
  | c :: cs =>
    if c.isDigit then
      (digitsVal cs).map (fun n => (c.toNat - '0'.toNat) * 10 ^ cs.length + n)
    else
      none

/-- Model of Rust `str::parse::<u64>` as used on the proto's amount strings: a
nonempty all-digit string whose value fits in a `u64`. -/
def parseU64 (s : String) : Option Nat :=
  if s.data.isEmpty then none
  else
    match digitsVal s.data with
    | none => none
    | some n => if n < 2 ^ 64 then some n else none

/-- Model of Rust `str::parse::<f64>` on the decimal price strings the auction
module produces: an optional sign, an integer part and an optional fractional
part (at least one of the two nonempty), valued exactly in `ℚ`. -/
def parseF64 (s : String) : Option ℚ :=
  let signed : Bool × List Char :=
    match s.data with
    | '-' :: rest => (true, rest)
    | '+' :: rest => (false, rest)
    | rest => (false, rest)
  let ip := signed.2.takeWhile (fun c => c ≠ '.')
  let sgn : ℚ := if signed.1 then -1 else 1
  match signed.2.dropWhile (fun c => c ≠ '.') with
  | [] =>
    if ip.isEmpty then none
    else (digitsVal ip).map (fun n => sgn * n)
  | _ :: frac =>
    if ip.isEmpty && frac.isEmpty then none
    else
      match digitsVal ip, digitsVal frac with
      | some a, some b => some (sgn * ((a : ℚ) + (b : ℚ) / 10 ^ frac.length))
      | _, _ => none

/-- The Rust `as u64` cast on a nonnegative-or-negative rational: truncation
toward zero with saturation into the `u64` range (a negative value saturates
to `0`, a too-large value to `2 ^ 64 - 1`). -/
def rustCastU64 (q : ℚ) : Nat :=
  min (Int.toNat ⌊q⌋) (2 ^ 64 - 1)

/-- `Watcher::evaluate_bid` (watcher.rs:80-99). The outer `Option` is normal
return vs. panic: `none` models the `unwrap` panics on an unparseable
`current_unit_price_in_usomm`, a missing `remaining_tokens_for_sale`, or an
unparseable amount; `some none` is a normal return of `None` (no bid),
`some (some b)` a normal return of `Some(b)`. -/
def evaluate_bid (order : Order) (usd_unit_value : ℚ) (auction : Auction) :
    Option (Option Bid) :=
  match parseF64 auction.current_unit_price_in_usomm with
  | none => none
  | some auction_unit_price_in_usomm =>
    match auction.remaining_tokens_for_sale with
    | none => none
    | some coin =>
      match parseU64 coin.amount with
      | none => none
      | some remaining_tokens_for_sale =>
        let max_allowed_usomm_offer := order.maximum_usomm_in
        let min_possible_token_out :=
          min (rustCastU64 ((max_allowed_usomm_offer : ℚ) / auction_unit_price_in_usomm))
            remaining_tokens_for_sale
        let usd_value_out : ℚ := (min_possible_token_out : ℚ) * usd_unit_value
        if (order.minimum_usd_value_out : ℚ) ≤ usd_value_out then
          some (some
            { auction_id := auction.id
              fee_token := order.fee_token
              maximum_usomm_in := max_allowed_usomm_offer
              minimum_tokens_out := min_possible_token_out })
        else
          some none

/-- A successfully parsed `u64` amount lies in the `u64` range. -/
theorem parseU64_lt {s : String} {r : Nat} (h : parseU64 s = some r) :
    r < 2 ^ 64 := by
  unfold parseU64 at h
  split at h
  · exact absurd h (by simp)
  · split at h
    · exact absurd h (by simp)
    · split at h
      · cases h
        assumption
      · exact absurd h (by simp)

/-- The `min` computed with the saturating `as u64` cast coincides with the
specification's `min(floor(max_in / unit_price), remaining)` whenever
`remaining` fits in a `u64`. -/
theorem min_rustCastU64 (q : ℚ) (r : Nat) (hr : r < 2 ^ 64) :
    min (rustCastU64 q) r = min (Int.toNat ⌊q⌋) r := by
  unfold rustCastU64
  rw [min_assoc]
  congr 1
  exact min_eq_right (by omega)

/-- C1: `evaluate_bid` returns a bid if and only if
`min(floor(maximum_quote_in / parse(current_unit_price)), remaining_amount) * P`
reaches `minimum_usd_value_out` (the boundary is inclusive), and the returned
bid is exactly `Bid{auction_id, fee_token, maximum_quote_in, that min}`;
stated for a positive parsed unit price, where the exact rational model agrees
with the `f64` computation. -/
theorem evaluate_bid_qualifies_iff (O : Order) (P : ℚ) (A : Auction) (up : ℚ)
    (c : Coin) (r : Nat)
    (h1 : parseF64 A.current_unit_price_in_usomm = some up)
    (h2 : A.remaining_tokens_for_sale = some c)
    (h3 : parseU64 c.amount = some r)
    (hup : 0 < up) :
    (evaluate_bid O P A =
        some (some
          { auction_id := A.id
            fee_token := O.fee_token
            maximum_usomm_in := O.maximum_usomm_in
            minimum_tokens_out :=
              min (Int.toNat ⌊(O.maximum_usomm_in : ℚ) / up⌋) r }) ↔
      (O.minimum_usd_value_out : ℚ) ≤
        ((min (Int.toNat ⌊(O.maximum_usomm_in : ℚ) / up⌋) r : ℕ) : ℚ) * P) ∧
    (evaluate_bid O P A = some none ↔
      ((min (Int.toNat ⌊(O.maximum_usomm_in : ℚ) / up⌋) r : ℕ) : ℚ) * P <
        (O.minimum_usd_value_out : ℚ)) := by
  have hmin := min_rustCastU64 ((O.maximum_usomm_in : ℚ) / up) r (parseU64_lt h3)
  simp only [evaluate_bid, h1, h2, h3, hmin]
  by_cases hc : (O.minimum_usd_value_out : ℚ) ≤
      ((min (Int.toNat ⌊(O.maximum_usomm_in : ℚ) / up⌋) r : ℕ) : ℚ) * P
  · rw [if_pos hc]
    exact ⟨iff_of_true rfl hc, iff_of_false (by simp) (not_lt.mpr hc)⟩
  · rw [if_neg hc]
    exact ⟨iff_of_false (by simp) hc, iff_of_true rfl (not_le.mp hc)⟩

/-- Witness for C1 at the spec's example: Auction{id=1, remaining="1000",
price="2.0"}, Order{maximum_quote_in=500, minimum_usd_value_out=100}, P=0.5
yields Bid{auction_id=1, maximum_quote_in=500, minimum_tokens_out=250}. -/
theorem evaluate_bid_qualifies_iff_witness :
    evaluate_bid ⟨500, 100, ⟨"usomm"⟩⟩ (1 / 2)
      ⟨1, some ⟨"uusomm", "1000"⟩, some ⟨"uusomm", "1000"⟩, "2.0", 0⟩ =
      some (some ⟨1, ⟨"usomm"⟩, 500, 250⟩) := by
  have e : min (Int.toNat
      ⌊(((⟨500, 100, ⟨"usomm"⟩⟩ : Order).maximum_usomm_in : ℕ) : ℚ) / 2⌋) 1000 =
      250 := by
    rw [show ⌊(((⟨500, 100, ⟨"usomm"⟩⟩ : Order).maximum_usomm_in : ℕ) : ℚ) / 2⌋ =
        (250 : ℤ) from by norm_num]
    decide
  have h := (evaluate_bid_qualifies_iff ⟨500, 100, ⟨"usomm"⟩⟩ (1 / 2)
      ⟨1, some ⟨"uusomm", "1000"⟩, some ⟨"uusomm", "1000"⟩, "2.0", 0⟩ 2
      ⟨"uusomm", "1000"⟩ 1000
      (by simp [parseF64, digitsVal]) rfl (by decide) (by norm_num)).1.mpr
    (by rw [e]; norm_num)
  rw [e] at h
  exact h

/-- C2: whenever `evaluate_bid` returns a bid, its token count never exceeds
the auction's remaining amount, its offer never exceeds the order's stated
maximum, the token count is the floored (truncated) ratio and never rounded
up, and the implied spend `tokens * unit_price` stays within
`maximum_quote_in`. -/
theorem evaluate_bid_conservation (O : Order) (P : ℚ) (A : Auction) (up : ℚ)
    (c : Coin) (r : Nat) (b : Bid)
    (h1 : parseF64 A.current_unit_price_in_usomm = some up)
    (h2 : A.remaining_tokens_for_sale = some c)
    (h3 : parseU64 c.amount = some r)
    (hup : 0 < up)
    (hb : evaluate_bid O P A = some (some b)) :
    b.minimum_tokens_out ≤ r ∧
    b.maximum_usomm_in ≤ O.maximum_usomm_in ∧
    b.minimum_tokens_out ≤ Int.toNat ⌊(O.maximum_usomm_in : ℚ) / up⌋ ∧
    (b.minimum_tokens_out : ℚ) * up ≤ (O.maximum_usomm_in : ℚ) := by
  have hmin := min_rustCastU64 ((O.maximum_usomm_in : ℚ) / up) r (parseU64_lt h3)
  simp only [evaluate_bid, h1, h2, h3, hmin] at hb
  split at hb
  case isFalse => exact absurd hb (by simp)
  case isTrue hc =>
    have hb' : b =
        { auction_id := A.id
          fee_token := O.fee_token
          maximum_usomm_in := O.maximum_usomm_in
          minimum_tokens_out :=
            min (Int.toNat ⌊(O.maximum_usomm_in : ℚ) / up⌋) r } :=
      (Option.some_inj.mp (Option.some_inj.mp hb)).symm
    subst hb'
    refine ⟨min_le_right _ _, le_refl _, min_le_left _ _, ?_⟩
    have hfloor : ((Int.toNat ⌊(O.maximum_usomm_in : ℚ) / up⌋ : ℕ) : ℚ) * up ≤
        (O.maximum_usomm_in : ℚ) := by
      rcases le_or_lt 0 ⌊(O.maximum_usomm_in : ℚ) / up⌋ with hf | hf
      · have h2' : ((Int.toNat ⌊(O.maximum_usomm_in : ℚ) / up⌋ : ℕ) : ℤ) =
            ⌊(O.maximum_usomm_in : ℚ) / up⌋ := Int.toNat_of_nonneg hf
        have h1' : ((Int.toNat ⌊(O.maximum_usomm_in : ℚ) / up⌋ : ℕ) : ℚ) ≤
            (O.maximum_usomm_in : ℚ) / up := by
          calc ((Int.toNat ⌊(O.maximum_usomm_in : ℚ) / up⌋ : ℕ) : ℚ)
              = ((⌊(O.maximum_usomm_in : ℚ) / up⌋ : ℤ) : ℚ) := by
                exact_mod_cast h2'
            _ ≤ (O.maximum_usomm_in : ℚ) / up := Int.floor_le _
        calc ((Int.toNat ⌊(O.maximum_usomm_in : ℚ) / up⌋ : ℕ) : ℚ) * up
            ≤ ((O.maximum_usomm_in : ℚ) / up) * up :=
              mul_le_mul_of_nonneg_right h1' (le_of_lt hup)
          _ = (O.maximum_usomm_in : ℚ) := div_mul_cancel₀ _ (ne_of_gt hup)
      · rw [Int.toNat_of_nonpos (le_of_lt hf)]
        simpa using Nat.cast_nonneg O.maximum_usomm_in
    calc ((min (Int.toNat ⌊(O.maximum_usomm_in : ℚ) / up⌋) r : ℕ) : ℚ) * up
        ≤ ((Int.toNat ⌊(O.maximum_usomm_in : ℚ) / up⌋ : ℕ) : ℚ) * up := by
          have := min_le_left (Int.toNat ⌊(O.maximum_usomm_in : ℚ) / up⌋) r
          exact mul_le_mul_of_nonneg_right (by exact_mod_cast this) (le_of_lt hup)
      _ ≤ (O.maximum_usomm_in : ℚ) := hfloor

/-- Witness for C2 at the spec's example: the produced bid spends 250 tokens
at unit price 2, staying within remaining=1000 and maximum_quote_in=500. -/
theorem evaluate_bid_conservation_witness :
    (250 : Nat) ≤ 1000 ∧ (500 : Nat) ≤ 500 ∧
    (250 : Nat) ≤ Int.toNat ⌊((500 : Nat) : ℚ) / 2⌋ ∧
    ((250 : Nat) : ℚ) * 2 ≤ ((500 : Nat) : ℚ) := by
  have h := evaluate_bid_conservation ⟨500, 100, ⟨"usomm"⟩⟩ (1 / 2)
      ⟨1, some ⟨"uusomm", "1000"⟩, some ⟨"uusomm", "1000"⟩, "2.0", 0⟩ 2
      ⟨"uusomm", "1000"⟩ 1000 ⟨1, ⟨"usomm"⟩, 500, 250⟩
      (by simp [parseF64, digitsVal]) rfl (by decide) (by norm_num)
      (by simp [evaluate_bid, parseF64, parseU64, digitsVal, rustCastU64,
            Int.toNat]
          norm_num)
  simpa using h

/-- The shared auction cache contents (`ACTIVE_AUCTIONS` in the cache crate's
lib.rs): a `HashMap<u32, AuctionProto>` modelled as a key-unique association
list from auction id to auction record. -/
abbrev AuctionMap := List (Nat × Auction)

/-- Failure of the `Client::active_auctions` query (the `SourceUnavailable`
condition of the design document, an `eyre` error in the code). -/
inductive SourceError where
  | sourceUnavailable (msg : String)
  deriving DecidableEq, Repr

/-- `HashMap::insert` keyed by auction id: replace the binding of an existing
key, otherwise add a new binding. -/
def ainsert (k : Nat) (v : Auction) : AuctionMap → AuctionMap
  | [] => [(k, v)]
  | p :: t => if p.1 = k then (k, v) :: t else p :: ainsert k v t

/-- `HashMap::get` keyed by auction id: the first binding of the key. -/
def alookup (k : Nat) : AuctionMap → Option Auction
  | [] => none
  | p :: t => if p.1 = k then some p.2 else alookup k t

/-- The key list of the cache map. -/
def keysOf (m : AuctionMap) : List Nat :=
  m.map Prod.fst

/-- The upsert pass of a successful refresh: `for auction in auctions {
active_auctions.insert(auction.id, auction); }` (cache lib.rs:41-43). -/
def refreshList (auctions : List Auction) (m : AuctionMap) : AuctionMap :=
  auctions.foldl (fun acc a => ainsert a.id a acc) m

/-- `refresh_active_auctions` (cache lib.rs:37-46). The query result is the
explicit `resp` input; the pair returned is the function's `Result` and the
cache contents after the call: the `?` operator returns before the cache is
touched, so an erroring query leaves the map as it was. -/
def refresh_active_auctions (resp : Except SourceError (List Auction))
    (cache : AuctionMap) : Except SourceError Unit × AuctionMap :=
  match resp with
  | .error e => (.error e, cache)
  | .ok auctions => (.ok (), refreshList auctions cache)

/-- `get_active_auctions` (cache lib.rs:48-52): a snapshot of the cached
auction records. -/
def get_active_auctions (cache : AuctionMap) : List Auction :=
  cache.map Prod.snd

/-- The cache `run` loop (cache lib.rs:28-35) over a finite prefix of query
results: each iteration applies one refresh — logging and discarding a failure
— and unconditionally continues with the next interval. -/
def cacheRun (cache : AuctionMap) :
    List (Except SourceError (List Auction)) → AuctionMap
  | [] => cache
  | r :: rs => cacheRun (refresh_active_auctions r cache).2 rs

/-- The binding a full upsert pass of `auctions` leaves for key `k`: the last
auction in the list with that id, if any. -/
def lastVal (k : Nat) : List Auction → Option Auction
  | [] => none
  | a :: t =>
    match lastVal k t with
    | some b => some b
    | none => if a.id = k then some a else none

theorem alookup_ainsert (k j : Nat) (v : Auction) (m : AuctionMap) :
    alookup k (ainsert j v m) = if j = k then some v else alookup k m := by
  induction m with
  | nil =>
    by_cases h : j = k <;> simp [ainsert, alookup, h]
  | cons p t ih =>
    by_cases hp : p.1 = j
    · by_cases hk : j = k
      · simp [ainsert, alookup, hp, hk]
      · have hpk : ¬p.1 = k := by rw [hp]; exact hk
        simp [ainsert, alookup, hp, hk, hpk]
    · by_cases hpk : p.1 = k
      · have hjk : ¬j = k := fun h => hp (by rw [hpk, h])
        have hkj : ¬k = j := fun h => hjk h.symm
        simp [ainsert, alookup, hp, hpk, hjk, hkj]
      · simp [ainsert, alookup, hp, hpk, ih]

theorem alookup_refreshList (l : List Auction) :
    ∀ (m : AuctionMap) (k : Nat),
      alookup k (refreshList l m) =
        match lastVal k l with
        | some a => some a
        | none => alookup k m := by
  induction l with
  | nil => intro m k; simp [refreshList, lastVal]
  | cons a t ih =>
    intro m k
    have step : refreshList (a :: t) m = refreshList t (ainsert a.id a m) := rfl
    rw [step, ih (ainsert a.id a m) k]
    cases hl : lastVal k t with
    | some b => simp [lastVal, hl]
    | none =>
      simp only [lastVal, hl]
      rw [alookup_ainsert]
      by_cases hk : a.id = k <;> simp [hk]

theorem lastVal_eq_none (k : Nat) (l : List Auction)
    (h : ∀ x ∈ l, x.id ≠ k) : lastVal k l = none := by
  induction l with
  | nil => rfl
  | cons a t ih =>
    have ht := ih (fun x hx => h x (List.mem_cons_of_mem a hx))
    simp [lastVal, ht, h a (List.mem_cons_self a t)]

theorem lastVal_isSome_of_mem (a : Auction) (l : List Auction) (h : a ∈ l) :
    (lastVal a.id l).isSome := by
  induction l with
  | nil => cases h
  | cons b t ih =>
    rcases List.mem_cons.mp h with hb | ht
    · subst hb
      cases hl : lastVal a.id t with
      | some c => simp [lastVal, hl]
      | none => simp [lastVal, hl]
    · cases hl : lastVal a.id t with
      | some c => simp [lastVal, hl]
      | none => exact absurd (ih ht) (by simp [hl])

theorem keysOf_ainsert_mem (k : Nat) (v : Auction) (m : AuctionMap)
    (h : k ∈ keysOf m) : keysOf (ainsert k v m) = keysOf m := by
  induction m with
  | nil => simp [keysOf] at h
  | cons p t ih =>
    by_cases hp : p.1 = k
    · show keysOf (if p.1 = k then (k, v) :: t else p :: ainsert k v t) =
        keysOf (p :: t)
      rw [if_pos hp]
      show k :: keysOf t = p.1 :: keysOf t
      rw [hp]
    · have ht : k ∈ keysOf t := by
        rcases List.mem_cons.mp
          (show k ∈ p.1 :: keysOf t from h) with h1 | h1
        · exact absurd h1.symm hp
        · exact h1
      show keysOf (if p.1 = k then (k, v) :: t else p :: ainsert k v t) =
        keysOf (p :: t)
      rw [if_neg hp]
      show p.1 :: keysOf (ainsert k v t) = p.1 :: keysOf t
      rw [ih ht]

theorem keysOf_ainsert_not_mem (k : Nat) (v : Auction) (m : AuctionMap)
    (h : k ∉ keysOf m) : keysOf (ainsert k v m) = keysOf m ++ [k] := by
  induction m with
  | nil => rfl
  | cons p t ih =>
    have hp : ¬p.1 = k := fun he => h (by
      rw [show keysOf (p :: t) = p.1 :: keysOf t from rfl, he]
      exact List.mem_cons_self k _)
    have ht : k ∉ keysOf t := fun hm => h (by
      rw [show keysOf (p :: t) = p.1 :: keysOf t from rfl]
      exact List.mem_cons_of_mem _ hm)
    show keysOf (if p.1 = k then (k, v) :: t else p :: ainsert k v t) =
      keysOf (p :: t) ++ [k]
    rw [if_neg hp]
    show p.1 :: keysOf (ainsert k v t) = (p.1 :: keysOf t) ++ [k]
    rw [ih ht, List.cons_append]

theorem nodup_keysOf_ainsert (k : Nat) (v : Auction) (m : AuctionMap)
    (hnd : (keysOf m).Nodup) : (keysOf (ainsert k v m)).Nodup := by
  by_cases hk : k ∈ keysOf m
  · rw [keysOf_ainsert_mem k v m hk]
    exact hnd
  · rw [keysOf_ainsert_not_mem k v m hk]
    exact (List.perm_append_singleton k (keysOf m)).nodup_iff.mpr
      (List.nodup_cons.mpr ⟨hk, hnd⟩)

theorem nodup_keysOf_refreshList (l : List Auction) :
    ∀ m : AuctionMap, (keysOf m).Nodup → (keysOf (refreshList l m)).Nodup := by
  induction l with
  | nil => intro m h; exact h
  | cons a t ih =>
    intro m h
    exact ih (ainsert a.id a m) (nodup_keysOf_ainsert a.id a m h)

theorem keysOf_refreshList_of_mem (l : List Auction) :
    ∀ m : AuctionMap, (∀ a ∈ l, a.id ∈ keysOf m) →
      keysOf (refreshList l m) = keysOf m := by
  induction l with
  | nil => intro m _; rfl
  | cons a t ih =>
    intro m h
    have ha : a.id ∈ keysOf m := h a (List.mem_cons_self a t)
    have hsub : ∀ b ∈ t, b.id ∈ keysOf (ainsert a.id a m) := by
      intro b hb
      rw [keysOf_ainsert_mem a.id a m ha]
      exact h b (List.mem_cons_of_mem a hb)
    show keysOf (refreshList t (ainsert a.id a m)) = keysOf m
    rw [ih (ainsert a.id a m) hsub, keysOf_ainsert_mem a.id a m ha]

theorem alookup_eq_none (k : Nat) (m : AuctionMap) (h : k ∉ keysOf m) :
    alookup k m = none := by
  induction m with
  | nil => rfl
  | cons p t ih =>
    have hp : ¬p.1 = k := fun he => h (by
      rw [show keysOf (p :: t) = p.1 :: keysOf t from rfl, he]
      exact List.mem_cons_self k _)
    have ht : k ∉ keysOf t := fun hm => h (by
      rw [show keysOf (p :: t) = p.1 :: keysOf t from rfl]
      exact List.mem_cons_of_mem _ hm)
    show (if p.1 = k then some p.2 else alookup k t) = none
    rw [if_neg hp]
    exact ih ht

theorem mem_keysOf_of_isSome (k : Nat) (m : AuctionMap)
    (h : (alookup k m).isSome) : k ∈ keysOf m := by
  by_contra hk
  rw [alookup_eq_none k m hk] at h
  simp at h

theorem eq_of_keysOf_alookup (m : AuctionMap) :
    ∀ m' : AuctionMap, keysOf m = keysOf m' → (keysOf m).Nodup →
      (∀ k, alookup k m = alookup k m') → m = m' := by
  induction m with
  | nil =>
    intro m' hk _ _
    cases m' with
    | nil => rfl
    | cons p' t' => simp [keysOf] at hk
  | cons p t ih =>
    intro m' hk hnd hl
    cases m' with
    | nil => simp [keysOf] at hk
    | cons p' t' =>
      have hk1 : p.1 = p'.1 ∧ keysOf t = keysOf t' := by
        have := hk
        simp only [keysOf, List.map_cons, List.cons.injEq] at this
        exact ⟨this.1, this.2⟩
      have hnd1 : p.1 ∉ keysOf t ∧ (keysOf t).Nodup := by
        have := hnd
        rw [show keysOf (p :: t) = p.1 :: keysOf t from rfl] at this
        exact List.nodup_cons.mp this
      have hval : p.2 = p'.2 := by
        have hv := hl p.1
        rw [show alookup p.1 (p :: t) = if p.1 = p.1 then some p.2
              else alookup p.1 t from rfl, if_pos rfl,
            show alookup p.1 (p' :: t') = if p'.1 = p.1 then some p'.2
              else alookup p.1 t' from rfl, if_pos hk1.1.symm] at hv
        exact Option.some_inj.mp hv
      have htl : ∀ k, alookup k t = alookup k t' := by
        intro k
        by_cases hkp : p.1 = k
        · rw [← hkp, alookup_eq_none _ _ hnd1.1,
            alookup_eq_none _ _ (by rw [← hk1.2]; exact hnd1.1)]
        · have hv := hl k
          rw [show alookup k (p :: t) = if p.1 = k then some p.2
                else alookup k t from rfl, if_neg hkp,
              show alookup k (p' :: t') = if p'.1 = k then some p'.2
                else alookup k t' from rfl,
              if_neg (by rw [← hk1.1]; exact hkp)] at hv
          exact hv
      have hteq : t = t' := ih t' hk1.2 hnd1.2 htl
      rw [hteq, Prod.ext_iff.mpr ⟨hk1.1, hval⟩]

/-- C3: when the AuctionSource query fails, `refresh_active_auctions` returns
the `SourceUnavailable` error and the cache mapping after the failed call is
exactly the mapping before it — no entry is added, removed or modified (the
`?` operator returns before the write lock is taken). -/
theorem refresh_error_leaves_cache (e : SourceError) (cache : AuctionMap) :
    (refresh_active_auctions (Except.error e) cache).1 = Except.error e ∧
    (refresh_active_auctions (Except.error e) cache).2 = cache :=
  ⟨rfl, rfl⟩

/-- C5: the cache run loop never terminates on a failed refresh: an erroring
iteration anywhere in the run leaves the cache untouched and the loop goes on
to retry on every following interval, exactly as if the failed iteration had
not happened. -/
theorem cacheRun_skips_failed_refresh (cache : AuctionMap) (e : SourceError)
    (pre post : List (Except SourceError (List Auction))) :
    cacheRun cache (pre ++ Except.error e :: post) =
      cacheRun cache (pre ++ post) := by
  induction pre generalizing cache with
  | nil => rfl
  | cons r rs ih => exact ih (refresh_active_auctions r cache).2

/-- C8: an auction id present in the cache but absent from the refreshed list
keeps its old entry unchanged — refresh only upserts the ids it received and
never evicts, so stale auctions persist. -/
theorem refresh_keeps_stale_entries (cache : AuctionMap) (l : List Auction)
    (k : Nat) (a : Auction)
    (hmem : alookup k cache = some a)
    (habs : ∀ x ∈ l, x.id ≠ k) :
    alookup k (refresh_active_auctions (Except.ok l) cache).2 = some a := by
  show alookup k (refreshList l cache) = some a
  rw [alookup_refreshList l cache k, lastVal_eq_none k l habs]
  exact hmem

/-- Witness for C8: id 1 survives, unchanged, a refresh that returns only
id 2. -/
theorem refresh_keeps_stale_entries_witness :
    alookup 1 (refresh_active_auctions
      (Except.ok [⟨2, none, none, "1.0", 7⟩])
      [(1, ⟨1, none, none, "2.0", 5⟩)]).2 = some ⟨1, none, none, "2.0", 5⟩ :=
  refresh_keeps_stale_entries [(1, ⟨1, none, none, "2.0", 5⟩)]
    [⟨2, none, none, "1.0", 7⟩] 1 ⟨1, none, none, "2.0", 5⟩
    (by decide) (by decide)

/-- C9: `refresh` is idempotent — refreshing twice with the identical list of
auctions yields a cache mapping, and hence a `get_active_auctions` snapshot,
identical to refreshing once (for any key-unique cache state, the `HashMap`
invariant). -/
theorem refresh_idempotent (cache : AuctionMap) (l : List Auction)
    (hnd : (keysOf cache).Nodup) :
    (refresh_active_auctions (Except.ok l)
        (refresh_active_auctions (Except.ok l) cache).2).2 =
      (refresh_active_auctions (Except.ok l) cache).2 ∧
    get_active_auctions (refresh_active_auctions (Except.ok l)
        (refresh_active_auctions (Except.ok l) cache).2).2 =
      get_active_auctions (refresh_active_auctions (Except.ok l) cache).2 := by
  have main : refreshList l (refreshList l cache) = refreshList l cache := by
    apply eq_of_keysOf_alookup
    · apply keysOf_refreshList_of_mem
      intro a ha
      apply mem_keysOf_of_isSome
      rw [alookup_refreshList l cache a.id]
      rcases Option.isSome_iff_exists.mp (lastVal_isSome_of_mem a l ha) with ⟨b, hb⟩
      rw [hb]
      rfl
    · exact nodup_keysOf_refreshList l (refreshList l cache)
        (nodup_keysOf_refreshList l cache hnd)
    · intro k
      rw [alookup_refreshList l (refreshList l cache) k]
      cases hl : lastVal k l with
      | some b =>
        rw [alookup_refreshList l cache k, hl]
      | none => rfl
  exact ⟨main, congrArg get_active_auctions main⟩

/-- Witness for C9 at a concrete cache and refresh list. -/
theorem refresh_idempotent_witness :
    (refresh_active_auctions (Except.ok [⟨2, none, none, "1.0", 7⟩])
        (refresh_active_auctions (Except.ok [⟨2, none, none, "1.0", 7⟩])
          [(1, ⟨1, none, none, "2.0", 5⟩)]).2).2 =
      (refresh_active_auctions (Except.ok [⟨2, none, none, "1.0", 7⟩])
        [(1, ⟨1, none, none, "2.0", 5⟩)]).2 :=
  (refresh_idempotent [(1, ⟨1, none, none, "2.0", 5⟩)]
    [⟨2, none, none, "1.0", 7⟩] (by decide)).1

/-- The state of `Watcher` (watcher.rs:14-20) relevant to evaluation: the
refreshed auction list, the denom-keyed order book and the denom-keyed price
map (the gRPC client and endpoint fields carry no evaluation semantics; the
fallible query they serve is the explicit refresh-result input of
`monitorRun`). -/
structure Watcher where
  active_auctions : List Auction
  orders : List (Denom × List Order)
  prices : List (Denom × ℚ)
  deriving DecidableEq

/-- `HashMap::get` on a denom-keyed map (the watcher's `orders` and
`prices`). -/
def dlookup {α : Type} (d : Denom) : List (Denom × α) → Option α
  | [] => none
  | p :: t => if p.1 = d then some p.2 else dlookup d t

/-- The inner order loop of `monitor_auctions` (watcher.rs:60-69): for each
order, look up the auction denom's reference price — skipping the order when
none is known — then run `evaluate_bid`, collecting the qualifying bids in
order; `none` models a panic escaping from `evaluate_bid`. -/
def evalOrders (w : Watcher) (auction : Auction) (d : Denom) :
    List Order → Option (List Bid)
  | [] => some []
  | o :: os =>
    match dlookup d w.prices with
    | none => evalOrders w auction d os
    | some usd_unit_value =>
      match evaluate_bid o usd_unit_value auction with
      | none => none
      | some none => evalOrders w auction d os
      | some (some b) =>
        match evalOrders w auction d os with
        | none => none
        | some bids => some (b :: bids)

/-- The per-auction body of `monitor_auctions` (watcher.rs:51-71): `unwrap` of
`starting_tokens_for_sale` (a panic, `none`, when the field is absent), denom
construction with a skip on failure, and order lookup with a skip when the
denom has no standing orders. -/
def evalAuction (w : Watcher) (a : Auction) : Option (List Bid) :=
  match a.starting_tokens_for_sale with
  | none => none
  | some coin =>
    match Denom.tryFrom coin.denom with
    | none => some []
    | some d =>
      match dlookup d w.orders with
      | none => some []
      | some os => evalOrders w a d os

/-- One full scan of the active-auction list, propagating a panic. -/
def evalAuctions (w : Watcher) : List Auction → Option (List Bid)
  | [] => some []
  | a :: rest =>
    match evalAuction w a with
    | none => none
    | some bids =>
      match evalAuctions w rest with
      | none => none
      | some more => some (bids ++ more)

/-- One cycle of the `monitor_auctions` loop body after a successful
refresh. -/
def evalCycle (w : Watcher) : Option (List Bid) :=
  evalAuctions w w.active_auctions

/-- How a finite prefix of the `monitor_auctions` loop ends: still looping,
returned with the refresh error (the `?` on `refresh_active_auctions`), or
dead from an `unwrap` panic. -/
inductive RunOutcome where
  | running (w : Watcher)
  | errored (e : SourceError)
  | panicked
  deriving DecidableEq

/-- The `monitor_auctions` loop (watcher.rs:44-75) over a finite prefix of
refresh results: each iteration replaces `active_auctions` with the query
result — the `?` operator returns the error to the caller, ending the loop —
then evaluates every auction against the order book; the qualifying bids of
all completed cycles are collected in order. -/
def monitorRun (w : Watcher) :
    List (Except SourceError (List Auction)) → RunOutcome × List Bid
  | [] => (RunOutcome.running w, [])
  | r :: rs =>
    match r with
    | .error e => (RunOutcome.errored e, [])
    | .ok auctions =>
      let w' := { w with active_auctions := auctions }
      match evalCycle w' with
      | none => (RunOutcome.panicked, [])
      | some bids =>
        match monitorRun w' rs with
        | (o, more) => (o, bids ++ more)

/-- A panic in any auction of the scanned list kills the whole scan. -/
theorem evalAuctions_eq_none_of_mem (w : Watcher) (a : Auction)
    (l : List Auction) (ha : a ∈ l) (h : evalAuction w a = none) :
    evalAuctions w l = none := by
  induction l with
  | nil => cases ha
  | cons b t ih =>
    rcases List.mem_cons.mp ha with hb | ht
    · rw [hb] at h
      simp [evalAuctions, h]
    · cases hb : evalAuction w b with
      | none => simp [evalAuctions, hb]
      | some bids => simp [evalAuctions, hb, ih ht]

/-- C6: an order whose denom has no entry in the price map is skipped this
cycle: the order list for that denom evaluates, without panic, to no bids at
all, and the cycle goes on to the remaining auctions exactly as if the
auction's orders were not there. -/
theorem no_price_skips_orders (w : Watcher) (a : Auction) (coin : Coin)
    (d : Denom) (os : List Order) (rest : List Auction)
    (hstart : a.starting_tokens_for_sale = some coin)
    (hd : Denom.tryFrom coin.denom = some d)
    (hord : dlookup d w.orders = some os)
    (hp : dlookup d w.prices = none) :
    evalOrders w a d os = some [] ∧
    evalAuctions w (a :: rest) = evalAuctions w rest := by
  have hskip : ∀ os' : List Order, evalOrders w a d os' = some [] := by
    intro os'
    induction os' with
    | nil => rfl
    | cons o t ih => simp [evalOrders, hp, ih]
  have hauction : evalAuction w a = some [] := by
    simp [evalAuction, hstart, hd, hord, hskip]
  refine ⟨hskip os, ?_⟩
  cases hrest : evalAuctions w rest with
  | none => simp [evalAuctions, hauction, hrest]
  | some more => simp [evalAuctions, hauction, hrest]

/-- Witness for C6: a price map without the auction denom produces no bid and
no panic, and the cycle result equals that of the remaining auctions. -/
theorem no_price_skips_orders_witness :
    evalOrders ⟨[], [(⟨"uusomm"⟩, [⟨500, 100, ⟨"usomm"⟩⟩])], []⟩
      ⟨1, some ⟨"uusomm", "1000"⟩, some ⟨"uusomm", "1000"⟩, "2.0", 0⟩
      ⟨"uusomm"⟩ [⟨500, 100, ⟨"usomm"⟩⟩] = some [] ∧
    evalAuctions ⟨[], [(⟨"uusomm"⟩, [⟨500, 100, ⟨"usomm"⟩⟩])], []⟩
      [⟨1, some ⟨"uusomm", "1000"⟩, some ⟨"uusomm", "1000"⟩, "2.0", 0⟩] =
      evalAuctions ⟨[], [(⟨"uusomm"⟩, [⟨500, 100, ⟨"usomm"⟩⟩])], []⟩ [] :=
  no_price_skips_orders ⟨[], [(⟨"uusomm"⟩, [⟨500, 100, ⟨"usomm"⟩⟩])], []⟩
    ⟨1, some ⟨"uusomm", "1000"⟩, some ⟨"uusomm", "1000"⟩, "2.0", 0⟩
    ⟨"uusomm", "1000"⟩ ⟨"uusomm"⟩ [⟨500, 100, ⟨"usomm"⟩⟩] []
    rfl (by decide) (by decide) rfl

/-- C7: a parse failure on the auction's price string or remaining-amount
string makes `evaluate_bid` panic instead of returning normally, and the panic
aborts the whole evaluation cycle wherever the auction sits in the scan — the
offending auction is not skipped. -/
theorem parse_failure_aborts_cycle (w : Watcher) (a : Auction) (coin : Coin)
    (d : Denom) (o : Order) (os : List Order) (p : ℚ) (l : List Auction)
    (hstart : a.starting_tokens_for_sale = some coin)
    (hd : Denom.tryFrom coin.denom = some d)
    (hord : dlookup d w.orders = some (o :: os))
    (hp : dlookup d w.prices = some p)
    (ha : a ∈ l)
    (hbad : parseF64 a.current_unit_price_in_usomm = none ∨
      ∃ c, a.remaining_tokens_for_sale = some c ∧ parseU64 c.amount = none) :
    evaluate_bid o p a = none ∧ evalAuctions w l = none := by
  have h1 : evaluate_bid o p a = none := by
    rcases hbad with hb | ⟨c, hc, hcp⟩
    · simp [evaluate_bid, hb]
    · cases hpp : parseF64 a.current_unit_price_in_usomm with
      | none => simp [evaluate_bid, hpp]
      | some up => simp [evaluate_bid, hpp, hc, hcp]
  have h2 : evalAuction w a = none := by
    simp [evalAuction, hstart, hd, hord, evalOrders, hp, h1]
  exact ⟨h1, evalAuctions_eq_none_of_mem w a l ha h2⟩

/-- Witness for C7: an auction whose price string is not a number panics
`evaluate_bid` and kills the cycle. -/
theorem parse_failure_aborts_cycle_witness :
    evaluate_bid ⟨500, 100, ⟨"usomm"⟩⟩ (1 / 2)
      ⟨1, some ⟨"uusomm", "1000"⟩, some ⟨"uusomm", "1000"⟩, "garbage", 0⟩ =
      none ∧
    evalAuctions ⟨[], [(⟨"uusomm"⟩, [⟨500, 100, ⟨"usomm"⟩⟩])],
        [(⟨"uusomm"⟩, 1 / 2)]⟩
      [⟨1, some ⟨"uusomm", "1000"⟩, some ⟨"uusomm", "1000"⟩, "garbage", 0⟩] =
      none :=
  parse_failure_aborts_cycle
    ⟨[], [(⟨"uusomm"⟩, [⟨500, 100, ⟨"usomm"⟩⟩])], [(⟨"uusomm"⟩, 1 / 2)]⟩
    ⟨1, some ⟨"uusomm", "1000"⟩, some ⟨"uusomm", "1000"⟩, "garbage", 0⟩
    ⟨"uusomm", "1000"⟩ ⟨"uusomm"⟩ ⟨500, 100, ⟨"usomm"⟩⟩ [] (1 / 2)
    [⟨1, some ⟨"uusomm", "1000"⟩, some ⟨"uusomm", "1000"⟩, "garbage", 0⟩]
    rfl (by decide) rfl rfl (by decide)
    (Or.inl (by decide))

/-- C10: the evaluation path is partial in the optional token fields: an
auction without `starting_tokens_for_sale` does not get skipped but panics the
whole cycle scan, and an auction without `remaining_tokens_for_sale` panics
`evaluate_bid`. -/
theorem missing_token_fields_panic (w : Watcher) (a : Auction)
    (l : List Auction) (o : Order) (p : ℚ) :
    (a.starting_tokens_for_sale = none → a ∈ l → evalAuctions w l = none) ∧
    (a.remaining_tokens_for_sale = none → evaluate_bid o p a = none) := by
  constructor
  · intro h ha
    exact evalAuctions_eq_none_of_mem w a l ha (by simp [evalAuction, h])
  · intro h
    cases hpp : parseF64 a.current_unit_price_in_usomm with
    | none => simp [evaluate_bid, hpp]
    | some up => simp [evaluate_bid, hpp, h]

/-- Witness for C10: both missing-field panics at concrete auctions. -/
theorem missing_token_fields_panic_witness :
    evalAuctions ⟨[], [], []⟩ [⟨1, none, none, "2.0", 0⟩] = none ∧
    evaluate_bid ⟨500, 100, ⟨"usomm"⟩⟩ 1
      ⟨1, some ⟨"uusomm", "1000"⟩, none, "2.0", 0⟩ = none :=
  ⟨(missing_token_fields_panic ⟨[], [], []⟩ ⟨1, none, none, "2.0", 0⟩
      [⟨1, none, none, "2.0", 0⟩] ⟨500, 100, ⟨"usomm"⟩⟩ 1).1 rfl
      (List.mem_singleton.mpr rfl),
    (missing_token_fields_panic ⟨[], [], []⟩
      ⟨1, some ⟨"uusomm", "1000"⟩, none, "2.0", 0⟩
      [] ⟨500, 100, ⟨"usomm"⟩⟩ 1).2 rfl⟩

/-- C4 is refuted by the `?` operator on the refresh inside the loop: a run
whose first refresh fails returns the error at once and produces no bids, even
though the very next refresh would have succeeded and its cycle (run on its
own) produces a bid — the loop does not continue across an isolated
failure. -/
theorem monitor_auctions_failure_counterexample :
    monitorRun ⟨[], [(⟨"uusomm"⟩, [⟨500, 100, ⟨"usomm"⟩⟩])],
        [(⟨"uusomm"⟩, 1 / 2)]⟩
      [Except.error (SourceError.sourceUnavailable "query failed"),
        Except.ok [⟨1, some ⟨"uusomm", "1000"⟩, some ⟨"uusomm", "1000"⟩,
          "2.0", 0⟩]] =
      (RunOutcome.errored (SourceError.sourceUnavailable "query failed"),
        []) ∧
    monitorRun ⟨[], [(⟨"uusomm"⟩, [⟨500, 100, ⟨"usomm"⟩⟩])],
        [(⟨"uusomm"⟩, 1 / 2)]⟩
      [Except.ok [⟨1, some ⟨"uusomm", "1000"⟩, some ⟨"uusomm", "1000"⟩,
        "2.0", 0⟩]] =
      (RunOutcome.running ⟨[⟨1, some ⟨"uusomm", "1000"⟩,
          some ⟨"uusomm", "1000"⟩, "2.0", 0⟩],
          [(⟨"uusomm"⟩, [⟨500, 100, ⟨"usomm"⟩⟩])], [(⟨"uusomm"⟩, 1 / 2)]⟩,
        [⟨1, ⟨"usomm"⟩, 500, 250⟩]) := by
  constructor
  · rfl
  · have hde : Denom.tryFrom "uusomm" = some ⟨"uusomm"⟩ := by decide
    have hbid : evaluate_bid ⟨500, 100, ⟨"usomm"⟩⟩ ((2 : ℚ)⁻¹)
        ⟨1, some ⟨"uusomm", "1000"⟩, some ⟨"uusomm", "1000"⟩, "2.0", 0⟩ =
        some (some ⟨1, ⟨"usomm"⟩, 500, 250⟩) := by
      simp [evaluate_bid, parseF64, parseU64, digitsVal, rustCastU64,
        Int.toNat]
      norm_num
    simp [monitorRun, evalCycle, evalAuctions, evalAuction, evalOrders,
      dlookup, hde, hbid]

/-- C4 (amended): a failed refresh terminates the `monitor_auctions` loop at
once — the error is returned as fatal to the calling context, no later refresh
result of that call is processed and no further bid is produced; whether to
restart is left to the surrounding process. -/
theorem monitor_auctions_error_returns (w : Watcher) (e : SourceError)
    (rs : List (Except SourceError (List Auction))) :
    monitorRun w (Except.error e :: rs) = (RunOutcome.errored e, []) := rfl
